import Mathlib

/-!
# Playback controller of the tracker widget (`ui/components/tracker/tracker.go`)

A shallow embedding of the transport operations of `tracker.Model`
(`SetVolume`, `StartTrack`, `Stop`, `Play`, `Pause`, `Rewind`, `SetPos` and the
queries) together with the arithmetic they rely on:

* `float64` values are the rationals they denote plus the two infinities and
  NaN; every arithmetic operation rounds its exact result to the nearest
  double (ties to even), as IEEE-754 binary64 does.  The sign of zero is not
  represented: a zero stands for `+0`.
* `int64` values are integers in `[-2^63, 2^63)`; `+=` wraps modulo `2^64`,
  `/` and `%` truncate towards zero, and a float-to-integer conversion whose
  value does not fit has no defined result (the Go specification leaves it to
  the implementation), which the embedding reports as `none`; `RewindOn` is
  `Rewind` with that value supplied, so that it has a result for every input.
* every operation returns the controller after the call together with the
  list of calls it issued to its collaborators (the audio player, the stream
  adapter, the UI program).
-/

namespace tracker

/-! ## binary64 arithmetic -/

/-- Floor of the binary logarithm of a positive natural number, by repeated
halving; the first argument bounds the number of halvings. -/
def log2Fuel : Nat → Nat → Nat
  | 0, _ => 0
  | fuel + 1, n => if n < 2 then 0 else log2Fuel fuel (n / 2) + 1

/-- The rational `2 ^ e` for an integer exponent. -/
def pow2 (e : Int) : ℚ :=
  if 0 ≤ e then ((2 ^ e.toNat : Nat) : ℚ) else 1 / ((2 ^ (-e).toNat : Nat) : ℚ)

/-- Binary exponent of a non-zero rational: the `e` with `2^e ≤ |q| < 2^(e+1)`. -/
def ilog2 (q : ℚ) : Int :=
  let n := q.num.natAbs
  let e0 : Int := (log2Fuel n n : Int) - (log2Fuel q.den q.den : Int)
  if pow2 e0 ≤ |q| then e0 else e0 - 1

/-- Nearest integer, ties to the even neighbour. -/
def roundHalfEven (q : ℚ) : Int :=
  let f := ⌊q⌋
  let r := q - f
  if r < 1 / 2 then f else if 1 / 2 < r then f + 1 else if f % 2 = 0 then f else f + 1

/-- A `float64` value.  A finite value is given by the rational it denotes;
the doubles are the `fin q` with `ofRat q = fin q`, and what is proved for
every rational holds for every double. -/
inductive Float64 where
  | fin (q : ℚ)
  | posInf
  | negInf
  | nan
  deriving DecidableEq

namespace Float64

/-- Rounding of an exact result to binary64: 53 significant bits, exponents
from `-1022` (below that the spacing stays `2^-1074`), overflow to infinity. -/
def ofRat (q : ℚ) : Float64 :=
  if q = 0 then fin 0 else
    let e := max (ilog2 q) (-1022)
    let ulp := pow2 (e - 52)
    let r := (roundHalfEven (q / ulp) : ℚ) * ulp
    if pow2 1024 ≤ |r| then (if 0 < q then posInf else negInf) else fin r

/-- The conversion `float64(n)` of an integer. -/
def ofInt (n : Int) : Float64 := ofRat n

/-- The comparison `a < b` (false as soon as one side is NaN). -/
def lt : Float64 → Float64 → Bool
  | nan, _ => false
  | _, nan => false
  | fin a, fin b => decide (a < b)
  | fin _, posInf => true
  | fin _, negInf => false
  | posInf, _ => false
  | negInf, negInf => false
  | negInf, _ => true

/-- The product `a * b`. -/
def mul : Float64 → Float64 → Float64
  | nan, _ => nan
  | _, nan => nan
  | fin a, fin b => ofRat (a * b)
  | fin a, posInf => if a = 0 then nan else if 0 < a then posInf else negInf
  | fin a, negInf => if a = 0 then nan else if 0 < a then negInf else posInf
  | posInf, fin b => if b = 0 then nan else if 0 < b then posInf else negInf
  | negInf, fin b => if b = 0 then nan else if 0 < b then negInf else posInf
  | posInf, posInf => posInf
  | posInf, negInf => negInf
  | negInf, posInf => negInf
  | negInf, negInf => posInf

/-- The quotient `a / b`; a zero divisor is `+0`. -/
def div : Float64 → Float64 → Float64
  | nan, _ => nan
  | _, nan => nan
  | fin a, fin b =>
    if b = 0 then (if a = 0 then nan else if 0 < a then posInf else negInf)
    else ofRat (a / b)
  | fin _, posInf => fin 0
  | fin _, negInf => fin 0
  | posInf, fin b => if 0 ≤ b then posInf else negInf
  | negInf, fin b => if 0 ≤ b then negInf else posInf
  | posInf, posInf => nan
  | posInf, negInf => nan
  | negInf, posInf => nan
  | negInf, negInf => nan

/-- Nearest integer, ties away from zero, of a rational. -/
def roundHalfAway (q : ℚ) : Int :=
  if 0 ≤ q then ⌊q + 1 / 2⌋ else ⌈q - 1 / 2⌉

/-- Go's `math.Round`: nearest integer, ties away from zero; infinities and NaN
are returned as they are. -/
def round : Float64 → Float64
  | fin q => fin (roundHalfAway q)
  | x => x

/-- Integer part of a rational, rounding towards zero. -/
def truncate (q : ℚ) : Int :=
  if 0 ≤ q then ⌊q⌋ else ⌈q⌉

/-- The conversion `int64(x)`: the fraction is discarded; `none` when the value
is not representable in `int64`, where Go leaves the result to the
implementation. -/
def toInt64 : Float64 → Option Int
  | fin q =>
    let t := truncate q
    if -(2 ^ 63) ≤ t ∧ t < 2 ^ 63 then some t else none
  | _ => none

/-- The conversion `int64(x)` on an implementation that yields `impl x`
(brought into `int64`) where the value is not representable. -/
def toInt64On (impl : Float64 → Int) (x : Float64) : Int :=
  match toInt64 x with
  | some t => t
  | none => (impl x + 2 ^ 63) % 2 ^ 64 - 2 ^ 63

end Float64

/-! ## int64 arithmetic -/

/-- Two's-complement wrap-around of an integer result into `int64`. -/
def wrapInt64 (x : Int) : Int := (x + 2 ^ 63) % 2 ^ 64 - 2 ^ 63

/-- Method `Milliseconds` of `time.Duration` (a count of nanoseconds). -/
def Milliseconds (d : Int) : Int := Int.tdiv d 1000000

/-- The `time.Duration` of a whole number of milliseconds. -/
def Millisecond (ms : Int) : Int := ms * 1000000

/-! ## the controller and its collaborators -/

/-- Control messages exchanged with the UI program. -/
inductive Control where
  | PLAY
  | PAUSE
  | STOP
  | NEXT
  | PREV
  | LIKE
  | REWIND
  | VOLUME
  | CACHE_TRACK
  | BUFFERING_COMPLETE
  deriving DecidableEq

/-- Reference points of `io.Seeker`. -/
inductive Whence where
  | SeekStart
  | SeekCurrent
  | SeekEnd
  deriving DecidableEq

/-- Modelled from the spec: `api.Track`, declared in a package outside the
sources at hand; the immutable metadata of a track (identifier, title, version
label, artist list, duration in milliseconds, availability flag). -/
structure Track where
  Id : String
  Title : String
  Version : String
  Artists : List String
  DurationMs : Int
  Available : Bool
  deriving DecidableEq

/-- Modelled from the spec: `stream.BufferedStream`, the download of one track,
seen through the best-known length in bytes it reports. -/
structure BufferedStream where
  length : Int
  deriving DecidableEq

/-- Modelled from the spec: `readWrapper`, the stream adapter, declared in a
file outside the sources at hand: the attached stream (if any) and the read
cursor as a fraction of the length. -/
structure readWrapper where
  trackBuffer : Option BufferedStream
  progress : Float64
  deriving DecidableEq

namespace readWrapper

/-- Modelled from the spec: `close()` detaches and releases the stream. -/
def Close (w : readWrapper) : readWrapper :=
  { w with trackBuffer := none }

/-- Modelled from the spec: `length()` returns the best-known length of the
attached stream (taken as 0 when nothing is attached). -/
def Length (w : readWrapper) : Int :=
  match w.trackBuffer with
  | some s => s.length
  | none => 0

/-- Modelled from the spec: `progress()` returns the read cursor over the
length, and 0 if no stream is attached. -/
def Progress (w : readWrapper) : Float64 :=
  match w.trackBuffer with
  | some _ => w.progress
  | none => Float64.fin 0

end readWrapper

/-- The state of an `oto.Player` (the output session of the audio library)
that the controller can observe or set: whether it is playing, and its
volume.  `Play` and `Pause` switch the first, `SetVolume` stores the second
unchanged.  A player that is asked to play fills its buffer from its source at
once and stays paused when the source is at its end with nothing read:
`StartTrack` decides this on the stream it attaches, while on resuming a paused
session (`Play` of the controller) the player is taken to have data, as it has
whenever its source is not at its end. -/
structure Player where
  playing : Bool
  volume : Float64
  deriving DecidableEq

/-- A call issued by the controller to one of its collaborators.  Queries
(`IsPlaying` of the player, `Length` and `Progress` of the adapter) change
nothing and are not recorded. -/
inductive Call where
  | playerSetVolume (v : Float64)
  | playerPlay
  | playerPause
  | playerSeek (offset : Int) (whence : Whence)
  | playerClose
  | wrapperNewReader (reader : Option BufferedStream)
  | wrapperClose
  | newPlayer
  | send (c : Control)
  deriving DecidableEq

/-- The fields of `tracker.Model` that the transport operations read or
write.  `player` is the pointer to the output session (`none` for nil);
`trackWrapper` is allocated once by `New` and never reassigned, so it is held
by value.  The remaining fields (width, progress bar, help, program, likes)
are not touched by any operation embedded here. -/
structure Model where
  cover : String
  track : Track
  volume : Float64
  player : Option Player
  trackWrapper : readWrapper
  deriving DecidableEq

namespace Model

/-- `func (m *Model) SetVolume(v float64)`. -/
def SetVolume (m : Model) (v : Float64) : Model × List Call :=
  let volume := if Float64.lt v (Float64.fin 0) then Float64.fin 0
    else if Float64.lt (Float64.fin 1) v then Float64.fin 1 else v
  match m.player with
  | some p => ({ m with volume := volume, player := some { p with volume := v } },
      [Call.playerSetVolume v])
  | none => ({ m with volume := volume }, [])

/-- `func (m *Model) Volume() float64`. -/
def Volume (m : Model) : Float64 := m.volume

/-- `func (m *Model) Stop()`. -/
def Stop (m : Model) : Model × List Call :=
  match m.player with
  | none => (m, [])
  | some p =>
    ({ m with trackWrapper := m.trackWrapper.Close, player := none },
      (if p.playing then [Call.playerPause] else []) ++ [Call.wrapperClose, Call.playerClose])

/-- `func (m *Model) IsPlaying() bool`. -/
def IsPlaying (m : Model) : Bool :=
  match m.player with
  | some p => m.trackWrapper.trackBuffer.isSome && p.playing
  | none => false

/-- `func (m *Model) IsStoped() bool`. -/
def IsStoped (m : Model) : Bool :=
  m.player.isNone || m.trackWrapper.trackBuffer.isNone

/-- `func (m *Model) CurrentTrack() *api.Track`. -/
def CurrentTrack (m : Model) : Track := m.track

/-- `func (m *Model) Play()`. -/
def Play (m : Model) : Model × List Call :=
  match m.player with
  | none => (m, [])
  | some p =>
    if m.trackWrapper.trackBuffer.isNone then (m, [])
    else if p.playing then (m, [])
    else ({ m with player := some { p with playing := true } }, [Call.playerPlay])

/-- `func (m *Model) Pause()`. -/
def Pause (m : Model) : Model × List Call :=
  match m.player with
  | none => (m, [])
  | some p =>
    if m.trackWrapper.trackBuffer.isNone then (m, [])
    else if !p.playing then (m, [])
    else ({ m with player := some { p with playing := false } }, [Call.playerPause])

/-- `func (m *Model) Rewind(amount time.Duration)`.  The seek moves the read
cursor inside the player and the adapter; the controller's own fields are not
assigned, and the call is what the embedding records. -/
def Rewind (m : Model) (amount : Int) : Option (Model × List Call) :=
  match m.player with
  | none => some (m, [Call.send Control.STOP])
  | some _ =>
    let amountMs := Milliseconds amount
    let length := m.trackWrapper.Length
    match Float64.toInt64 (Float64.mul (Float64.ofInt length) m.trackWrapper.Progress),
      Float64.toInt64 (Float64.round (Float64.mul
        (Float64.div (Float64.ofInt length) (Float64.ofInt m.track.DurationMs))
        (Float64.ofInt amountMs))) with
    | some currentPos0, some byteOffset =>
      let currentPos1 := wrapInt64 (currentPos0 + byteOffset)
      let currentPos := wrapInt64 (currentPos1 + Int.tmod currentPos1 4)
      if currentPos ≤ 0 then some (m, [Call.playerSeek 0 Whence.SeekStart])
      else if currentPos ≥ length then some (m, [Call.playerSeek 0 Whence.SeekEnd])
      else some (m, [Call.playerSeek currentPos Whence.SeekStart])
    | _, _ => none

/-- `func (m *Model) Rewind(amount time.Duration)` on an implementation whose
conversions to `int64` yield `impl x` for an unrepresentable `x`: the same
statements as `Rewind`, with a result for every input. -/
def RewindOn (impl : Float64 → Int) (m : Model) (amount : Int) : Model × List Call :=
  match m.player with
  | none => (m, [Call.send Control.STOP])
  | some _ =>
    let amountMs := Milliseconds amount
    let length := m.trackWrapper.Length
    let currentPos0 := Float64.toInt64On impl
      (Float64.mul (Float64.ofInt length) m.trackWrapper.Progress)
    let byteOffset := Float64.toInt64On impl (Float64.round (Float64.mul
      (Float64.div (Float64.ofInt length) (Float64.ofInt m.track.DurationMs))
      (Float64.ofInt amountMs)))
    let currentPos1 := wrapInt64 (currentPos0 + byteOffset)
    let currentPos := wrapInt64 (currentPos1 + Int.tmod currentPos1 4)
    if currentPos ≤ 0 then (m, [Call.playerSeek 0 Whence.SeekStart])
    else if currentPos ≥ length then (m, [Call.playerSeek 0 Whence.SeekEnd])
    else (m, [Call.playerSeek currentPos Whence.SeekStart])

/-- `func (m *Model) SetPos(pos time.Duration)`. -/
def SetPos (m : Model) (pos : Int) : Option (Model × List Call) :=
  match m.player with
  | none => some (m, [Call.send Control.STOP])
  | some _ =>
    let posMs := Milliseconds pos
    match Float64.toInt64 (Float64.round (Float64.mul
        (Float64.div (Float64.ofInt m.trackWrapper.Length) (Float64.ofInt m.track.DurationMs))
        (Float64.ofInt posMs))) with
    | some byteOffset0 =>
      let byteOffset := wrapInt64 (byteOffset0 + Int.tmod byteOffset0 4)
      some (m, [Call.playerSeek byteOffset Whence.SeekStart])
    | none => none

end Model

/-! ## reference definitions and sample states -/

/-- The clamp of the volume as the specification words it: 0 below 0, 1 above
1, the value itself otherwise. -/
def clamp01 : Float64 → Float64
  | Float64.fin q => Float64.fin (max 0 (min q 1))
  | Float64.posInf => Float64.fin 1
  | Float64.negInf => Float64.fin 0
  | Float64.nan => Float64.nan

/-- A track of 200 seconds. -/
def sampleTrack : Track :=
  { Id := "1", Title := "t", Version := "", Artists := [], DurationMs := 200000,
    Available := true }

/-- A controller on which nothing was ever loaded. -/
def idleModel : Model :=
  { cover := "", track := sampleTrack, volume := Float64.fin (1 / 2), player := none,
    trackWrapper := { trackBuffer := none, progress := Float64.fin 0 } }

/-- A controller playing `sampleTrack` from a stream of `length` bytes, the
read cursor at the start. -/
def playingModel (length : Int) : Model :=
  { cover := "", track := sampleTrack, volume := Float64.fin (1 / 2),
    player := some { playing := true, volume := Float64.fin (1 / 2) },
    trackWrapper := { trackBuffer := some { length := length }, progress := Float64.fin 0 } }

/-- A controller playing a track of `durationMs` milliseconds from a stream of
`length` bytes, the read cursor at the fraction `progress`. -/
def sessionAt (durationMs length : Int) (progress : ℚ) : Model :=
  { cover := ""
    track :=
      { Id := "1"
        Title := "t"
        Version := ""
        Artists := []
        DurationMs := durationMs
        Available := true }
    volume := Float64.fin (1 / 2)
    player := some { playing := true, volume := Float64.fin (1 / 2) }
    trackWrapper :=
      { trackBuffer := some { length := length }
        progress := Float64.fin progress } }

/-! ## lemmas on the arithmetic -/

theorem pow2_eq_zpow (e : Int) : pow2 e = (2 : ℚ) ^ e := by
  unfold pow2
  split_ifs with h
  · obtain ⟨n, rfl⟩ := Int.eq_ofNat_of_zero_le h
    simp
  · push_neg at h
    obtain ⟨n, hn⟩ := Int.eq_ofNat_of_zero_le (by omega : 0 ≤ -e)
    have he : e = -(n : Int) := by omega
    subst he
    simp

theorem pow2_pos (e : Int) : 0 < pow2 e := by
  rw [pow2_eq_zpow]; positivity

theorem pow2_add (a b : Int) : pow2 (a + b) = pow2 a * pow2 b := by
  simp only [pow2_eq_zpow]
  exact zpow_add₀ (by norm_num) a b

theorem pow2_le_pow2 {a b : Int} (h : a ≤ b) : pow2 a ≤ pow2 b := by
  simp only [pow2_eq_zpow]
  exact zpow_le_zpow_right₀ (by norm_num) h

theorem pow2_lt_pow2_iff {a b : Int} : pow2 a < pow2 b ↔ a < b := by
  simp only [pow2_eq_zpow]
  exact zpow_lt_zpow_iff_right₀ (by norm_num)

theorem pow2_ofNat (n : Nat) : pow2 (n : Int) = (2 : ℚ) ^ n := by
  rw [pow2_eq_zpow]; simp

theorem log2Fuel_spec : ∀ (fuel n : Nat), 0 < n → n ≤ fuel →
    2 ^ log2Fuel fuel n ≤ n ∧ n < 2 ^ (log2Fuel fuel n + 1)
  | 0, n, h0, h1 => by omega
  | fuel + 1, n, h0, h1 => by
    unfold log2Fuel
    split_ifs with h
    · constructor <;> simp <;> omega
    · have ih := log2Fuel_spec fuel (n / 2) (by omega) (by omega)
      obtain ⟨ih1, ih2⟩ := ih
      constructor
      · rw [pow_succ]; omega
      · rw [pow_succ]; omega


theorem abs_eq_natAbs_div_den (q : ℚ) : |q| = (q.num.natAbs : ℚ) / (q.den : ℚ) := by
  have h : |q| = |(q.num : ℚ) / (q.den : ℚ)| := by rw [Rat.num_div_den]
  rw [h, abs_div, Nat.abs_cast, Nat.cast_natAbs, Int.cast_abs]

theorem pow2_sub_nat (a b : Nat) : pow2 ((a : Int) - (b : Int)) = (2 : ℚ) ^ a / (2 : ℚ) ^ b := by
  rw [pow2_eq_zpow, zpow_sub₀ (by norm_num)]
  simp

theorem ilog2_spec (q : ℚ) (hq : q ≠ 0) :
    pow2 (ilog2 q) ≤ |q| ∧ |q| < pow2 (ilog2 q + 1) := by
  have hn : 0 < q.num.natAbs := Int.natAbs_pos.mpr (Rat.num_ne_zero.mpr hq)
  have hd : 0 < q.den := q.den_pos
  obtain ⟨na, nb⟩ := log2Fuel_spec q.num.natAbs q.num.natAbs hn le_rfl
  obtain ⟨da, db⟩ := log2Fuel_spec q.den q.den hd le_rfl
  have habs := abs_eq_natAbs_div_den q
  set n := q.num.natAbs
  set d := q.den
  set a := log2Fuel n n
  set b := log2Fuel d d
  have na' : (2 : ℚ) ^ a ≤ (n : ℚ) := by exact_mod_cast na
  have nb' : (n : ℚ) < (2 : ℚ) ^ (a + 1) := by exact_mod_cast nb
  have da' : (2 : ℚ) ^ b ≤ (d : ℚ) := by exact_mod_cast da
  have db' : (d : ℚ) < (2 : ℚ) ^ (b + 1) := by exact_mod_cast db
  have hdq : (0 : ℚ) < (d : ℚ) := by exact_mod_cast hd
  have hb0 : (0 : ℚ) < (2 : ℚ) ^ b := by positivity
  have hb1 : (0 : ℚ) < (2 : ℚ) ^ (b + 1) := by positivity
  have up : |q| < pow2 ((a : Int) - (b : Int) + 1) := by
    have e : ((a : Int) - (b : Int) + 1) = (((a + 1 : Nat) : Int) - (b : Int)) := by push_cast; ring
    rw [e, pow2_sub_nat, habs, div_lt_div_iff₀ hdq hb0]
    calc (n : ℚ) * 2 ^ b < 2 ^ (a + 1) * 2 ^ b := by
          apply mul_lt_mul_of_pos_right nb' hb0
      _ ≤ 2 ^ (a + 1) * d := by
          apply mul_le_mul_of_nonneg_left da' (by positivity)
  have low : pow2 ((a : Int) - (b : Int) - 1) ≤ |q| := by
    have e : ((a : Int) - (b : Int) - 1) = ((a : Int) - ((b + 1 : Nat) : Int)) := by push_cast; ring
    rw [e, pow2_sub_nat, habs, div_le_div_iff₀ hb1 hdq]
    calc (2 : ℚ) ^ a * d ≤ n * d := by
          apply mul_le_mul_of_nonneg_right na' (le_of_lt hdq)
      _ ≤ n * 2 ^ (b + 1) := by
          apply mul_le_mul_of_nonneg_left (le_of_lt db') (by positivity)
  have hdef : ilog2 q = if pow2 ((a : Int) - (b : Int)) ≤ |q| then (a : Int) - (b : Int)
      else (a : Int) - (b : Int) - 1 := rfl
  rw [hdef]
  split_ifs with h
  · exact ⟨h, up⟩
  · refine ⟨low, ?_⟩
    have : ((a : Int) - (b : Int) - 1 + 1) = (a : Int) - (b : Int) := by ring
    rw [this]
    exact not_le.mp h

theorem pow2_neg_nat (n : Nat) : pow2 (-(n : Int)) = 1 / (2 : ℚ) ^ n := by
  rw [pow2_eq_zpow, zpow_neg, zpow_natCast, one_div]

theorem roundHalfEven_cases (q : ℚ) : roundHalfEven q = ⌊q⌋ ∨ roundHalfEven q = ⌊q⌋ + 1 := by
  unfold roundHalfEven
  simp only
  split_ifs <;> simp

theorem roundHalfEven_err (q : ℚ) : |(roundHalfEven q : ℚ) - q| ≤ 1 / 2 := by
  have h1 := Int.floor_le q
  have h2 := Int.lt_floor_add_one q
  unfold roundHalfEven
  simp only
  rw [abs_le]
  split_ifs with a b c
  · constructor <;> linarith
  · push_cast; constructor <;> linarith
  · constructor <;> linarith
  · push_cast; constructor <;> linarith

theorem roundHalfEven_nonneg {q : ℚ} (h : 0 ≤ q) : 0 ≤ roundHalfEven q := by
  have hf : 0 ≤ ⌊q⌋ := Int.floor_nonneg.mpr h
  rcases roundHalfEven_cases q with e | e <;> rw [e] <;> omega

theorem roundHalfEven_nonpos {q : ℚ} (h : q ≤ 0) : roundHalfEven q ≤ 0 := by
  rcases eq_or_lt_of_le h with h0 | h0
  · subst h0
    unfold roundHalfEven
    simp
  · have hf : ⌊q⌋ < 0 := Int.floor_lt.mpr (by exact_mod_cast h0)
    rcases roundHalfEven_cases q with e | e <;> rw [e] <;> omega

theorem roundHalfEven_intCast (k : Int) : roundHalfEven (k : ℚ) = k := by
  unfold roundHalfEven
  simp

/-- Rounding to binary64 of a rational below `2^1023` in magnitude: the result
is finite, has the sign of the argument, and differs from it by at most half a
unit in the last place. -/
theorem ofRat_err (q : ℚ) (hq : |q| ≤ pow2 1023) :
    ∃ r : ℚ, Float64.ofRat q = Float64.fin r ∧
      |r - q| ≤ |q| / 2 ^ 53 + pow2 (-1075) ∧ (0 ≤ q → 0 ≤ r) ∧ (q ≤ 0 → r ≤ 0) := by
  by_cases h0 : q = 0
  · subst h0
    refine ⟨0, by simp [Float64.ofRat], ?_, by simp, by simp⟩
    have := pow2_pos (-1075)
    simp; linarith
  · obtain ⟨hlo, -⟩ := ilog2_spec q h0
    set e := max (ilog2 q) (-1022) with he
    set ulp := pow2 (e - 52) with hulp
    have hup : 0 < ulp := pow2_pos _
    set k := roundHalfEven (q / ulp) with hk
    have hhalf : ulp = 2 * pow2 (e - 53) := by
      have : e - 52 = 1 + (e - 53) := by ring
      rw [hulp, this, pow2_add]
      norm_num [pow2]
    have hbound : pow2 (e - 53) ≤ |q| / 2 ^ 53 + pow2 (-1075) := by
      have t0 := pow2_pos (-1075)
      have a0 : 0 ≤ |q| / 2 ^ 53 := by positivity
      rcases le_total (ilog2 q) (-1022) with hc | hc
      · have : e = -1022 := by rw [he]; exact max_eq_right hc
        rw [this]
        norm_num
        linarith
      · have : e = ilog2 q := by rw [he]; exact max_eq_left hc
        rw [this]
        have e2 : ilog2 q - 53 = ilog2 q + (-53) := by ring
        rw [e2, pow2_add]
        have e3 : pow2 (-53) = 1 / 2 ^ 53 := by
          have := pow2_neg_nat 53
          simpa using this
        rw [e3]
        have : pow2 (ilog2 q) * (1 / 2 ^ 53) ≤ |q| / 2 ^ 53 := by
          rw [mul_one_div]
          exact div_le_div_of_nonneg_right hlo (by positivity)
        linarith
    have herr : |(k : ℚ) * ulp - q| ≤ pow2 (e - 53) := by
      have h1 := roundHalfEven_err (q / ulp)
      have h2 : (k : ℚ) * ulp - q = ((k : ℚ) - q / ulp) * ulp := by
        field_simp
      rw [h2, abs_mul, abs_of_pos hup]
      calc |(k : ℚ) - q / ulp| * ulp ≤ 1 / 2 * ulp :=
            mul_le_mul_of_nonneg_right h1 (le_of_lt hup)
        _ = pow2 (e - 53) := by rw [hhalf]; ring
    have hfin : ¬ pow2 1024 ≤ |(k : ℚ) * ulp| := by
      rw [not_le]
      have h3 : |(k : ℚ) * ulp| ≤ |q| + |(k : ℚ) * ulp - q| := by
        have := abs_add q ((k : ℚ) * ulp - q)
        simpa using this
      have h4 : pow2 1024 = 2 * pow2 1023 := by
        have : (1024 : Int) = 1 + 1023 := by norm_num
        rw [this, pow2_add]
        norm_num [pow2]
      have h5 : pow2 (-1075) ≤ 1 / 4 := by
        have : pow2 (-1075) ≤ pow2 (-2) := pow2_le_pow2 (by norm_num)
        have e4 : pow2 (-2) = 1 / 4 := by
          have := pow2_neg_nat 2
          norm_num at this
          simpa using this
        linarith
      have h6 : (1 : ℚ) ≤ pow2 1023 := by
        have : pow2 0 ≤ pow2 1023 := pow2_le_pow2 (by norm_num)
        have e4 : pow2 0 = 1 := by norm_num [pow2]
        linarith
      have h7 : |q| / 2 ^ 53 ≤ |q| / 2 := by
        apply div_le_div_of_nonneg_left (abs_nonneg q) (by norm_num)
        norm_num
      linarith
    refine ⟨(k : ℚ) * ulp, ?_, le_trans herr hbound, ?_, ?_⟩
    · have : Float64.ofRat q = if pow2 1024 ≤ |(k : ℚ) * ulp| then
          (if 0 < q then Float64.posInf else Float64.negInf) else Float64.fin ((k : ℚ) * ulp) := by
        unfold Float64.ofRat
        rw [if_neg h0]
      rw [this, if_neg hfin]
    · intro hq0
      have : 0 ≤ k := roundHalfEven_nonneg (div_nonneg hq0 (le_of_lt hup))
      have : (0 : ℚ) ≤ (k : ℚ) := by exact_mod_cast this
      positivity
    · intro hq0
      have : k ≤ 0 := roundHalfEven_nonpos (div_nonpos_of_nonpos_of_nonneg hq0 (le_of_lt hup))
      have : (k : ℚ) ≤ 0 := by exact_mod_cast this
      exact mul_nonpos_of_nonpos_of_nonneg this (le_of_lt hup)

/-- Integers below `2^53` in magnitude convert to `float64` exactly. -/
theorem ofInt_exact (n : Int) (h : |n| < 2 ^ 53) : Float64.ofInt n = Float64.fin n := by
  unfold Float64.ofInt
  by_cases h0 : n = 0
  · subst h0; simp [Float64.ofRat]
  · have hq : (n : ℚ) ≠ 0 := by exact_mod_cast h0
    obtain ⟨hlo, hhi⟩ := ilog2_spec (n : ℚ) hq
    have habs1 : (1 : ℚ) ≤ |(n : ℚ)| := by
      have : 1 ≤ |n| := Int.one_le_abs h0
      exact_mod_cast this
    have habs2 : |(n : ℚ)| < 2 ^ 53 := by exact_mod_cast h
    have p0 : pow2 0 = 1 := by norm_num [pow2]
    have p53 : pow2 53 = 2 ^ 53 := pow2_ofNat 53
    have e0 : 0 ≤ ilog2 (n : ℚ) := by
      by_contra hc
      push_neg at hc
      have : pow2 (ilog2 (n : ℚ) + 1) ≤ pow2 0 := pow2_le_pow2 (by omega)
      linarith
    have e1 : ilog2 (n : ℚ) < 53 := by
      by_contra hc
      push_neg at hc
      have : pow2 53 ≤ pow2 (ilog2 (n : ℚ)) := pow2_le_pow2 hc
      linarith
    obtain ⟨j, hj⟩ : ∃ j : Nat, ilog2 (n : ℚ) - 52 = -(j : Int) :=
      ⟨(52 - ilog2 (n : ℚ)).toNat, by omega⟩
    have hmax : max (ilog2 (n : ℚ)) (-1022) = ilog2 (n : ℚ) := max_eq_left (by omega)
    have hdiv : (n : ℚ) / (1 / 2 ^ j) = ((n * 2 ^ j : Int) : ℚ) := by
      push_cast; field_simp
    have hmul : ((n * 2 ^ j : Int) : ℚ) * (1 / 2 ^ j) = (n : ℚ) := by
      push_cast; field_simp
    have hfin : ¬ pow2 1024 ≤ |(n : ℚ)| := by
      rw [not_le]
      have : pow2 53 ≤ pow2 1024 := pow2_le_pow2 (by norm_num)
      linarith
    unfold Float64.ofRat
    rw [if_neg hq]
    simp only [hmax, hj, pow2_neg_nat, hdiv, roundHalfEven_intCast, hmul, if_neg hfin]

theorem roundHalfAway_err (q : ℚ) : |(Float64.roundHalfAway q : ℚ) - q| ≤ 1 / 2 := by
  unfold Float64.roundHalfAway
  rw [abs_le]
  split_ifs with h
  · have h1 := Int.floor_le (q + 1 / 2)
    have h2 := Int.lt_floor_add_one (q + 1 / 2)
    constructor <;> linarith
  · have h1 := Int.le_ceil (q - 1 / 2)
    have h2 := Int.ceil_lt_add_one (q - 1 / 2)
    constructor <;> linarith

theorem roundHalfAway_nonneg {q : ℚ} (h : 0 ≤ q) : 0 ≤ Float64.roundHalfAway q := by
  unfold Float64.roundHalfAway
  rw [if_pos h]
  exact Int.floor_nonneg.mpr (by linarith)

theorem roundHalfAway_nonpos {q : ℚ} (h : q ≤ 0) : Float64.roundHalfAway q ≤ 0 := by
  unfold Float64.roundHalfAway
  split_ifs with h0
  · have : q = 0 := le_antisymm h h0
    subst this
    norm_num
  · exact Int.ceil_le.mpr (by push_cast; linarith)

theorem truncate_intCast (k : Int) : Float64.truncate (k : ℚ) = k := by
  unfold Float64.truncate
  split_ifs <;> simp

theorem truncate_nonneg {q : ℚ} (h : 0 ≤ q) :
    0 ≤ Float64.truncate q ∧ (Float64.truncate q : ℚ) ≤ q := by
  unfold Float64.truncate
  rw [if_pos h]
  exact ⟨Int.floor_nonneg.mpr h, Int.floor_le q⟩

theorem toInt64_round_fin (q : ℚ) (h1 : -(2 ^ 63) ≤ Float64.roundHalfAway q)
    (h2 : Float64.roundHalfAway q < 2 ^ 63) :
    Float64.toInt64 (Float64.round (Float64.fin q)) = some (Float64.roundHalfAway q) := by
  simp only [Float64.round, Float64.toInt64, truncate_intCast]
  rw [if_pos ⟨h1, h2⟩]

theorem toInt64_fin (q : ℚ) (h1 : -(2 ^ 63) ≤ Float64.truncate q)
    (h2 : Float64.truncate q < 2 ^ 63) :
    Float64.toInt64 (Float64.fin q) = some (Float64.truncate q) := by
  simp only [Float64.toInt64]
  rw [if_pos ⟨h1, h2⟩]

theorem toInt64_range {x : Float64} {k : Int} (h : Float64.toInt64 x = some k) :
    -(2 ^ 63) ≤ k ∧ k < 2 ^ 63 := by
  cases x with
  | fin q =>
    simp only [Float64.toInt64] at h
    split_ifs at h with hr
    cases h
    exact hr
  | posInf => simp [Float64.toInt64] at h
  | negInf => simp [Float64.toInt64] at h
  | nan => simp [Float64.toInt64] at h

theorem wrapInt64_of_range {x : Int} (h1 : -(2 ^ 63) ≤ x) (h2 : x < 2 ^ 63) :
    wrapInt64 x = x := by
  unfold wrapInt64
  omega

theorem Milliseconds_Millisecond (a : Int) : Milliseconds (Millisecond a) = a := by
  unfold Milliseconds Millisecond
  exact Int.mul_tdiv_cancel a (by norm_num)

theorem two_pow_64_le_pow2_1023 : (2 : ℚ) ^ 64 ≤ pow2 1023 := by
  have h : pow2 64 ≤ pow2 1023 := pow2_le_pow2 (by norm_num)
  have e : pow2 64 = 2 ^ 64 := pow2_ofNat 64
  linarith

theorem tiny_le : pow2 (-1075) ≤ 1 / 2 ^ 100 := by
  have h : pow2 (-1075) ≤ pow2 (-(100 : Nat)) := pow2_le_pow2 (by norm_num)
  rw [pow2_neg_nat] at h
  exact h

theorem tmod_four_bounds (c : Int) :
    (0 ≤ c → 0 ≤ Int.tmod c 4 ∧ Int.tmod c 4 ≤ 3) ∧
    (c ≤ 0 → -3 ≤ Int.tmod c 4 ∧ Int.tmod c 4 ≤ 0) := by
  constructor
  · intro h
    rw [Int.tmod_eq_emod h (by norm_num)]
    omega
  · intro h
    obtain ⟨d, rfl⟩ : ∃ d : Int, c = -d := ⟨-c, by ring⟩
    have hd : 0 ≤ d := by omega
    have e1 : Int.tmod (-d) 4 = -(Int.tmod d 4) := by
      rw [Int.tmod_def, Int.tmod_def, Int.neg_tdiv]
      ring
    rw [e1, Int.tmod_eq_emod hd (by norm_num)]
    omega

theorem ofRat_err64 (q : ℚ) (hq : |q| ≤ 2 ^ 64) :
    ∃ r : ℚ, Float64.ofRat q = Float64.fin r ∧
      |r - q| ≤ |q| / 64 + 1 / 2 ^ 100 ∧ (0 ≤ q → 0 ≤ r) ∧ (q ≤ 0 → r ≤ 0) := by
  obtain ⟨r, h1, h2, h3, h4⟩ := ofRat_err q (le_trans hq two_pow_64_le_pow2_1023)
  refine ⟨r, h1, ?_, h3, h4⟩
  have a : |q| / 2 ^ 53 ≤ |q| / 64 :=
    div_le_div_of_nonneg_left (abs_nonneg q) (by norm_num) (by norm_num)
  have b := tiny_le
  linarith

theorem Rewind_of_conversions (m : Model) (p : Player) (s : BufferedStream) (amount x y : Int)
    (hp : m.player = some p) (hs : m.trackWrapper.trackBuffer = some s)
    (hx : Float64.toInt64 (Float64.mul (Float64.ofInt s.length) m.trackWrapper.progress) = some x)
    (hy : Float64.toInt64 (Float64.round (Float64.mul
      (Float64.div (Float64.ofInt s.length) (Float64.ofInt m.track.DurationMs))
      (Float64.ofInt (Milliseconds amount)))) = some y) :
    m.Rewind amount =
      if wrapInt64 (wrapInt64 (x + y) + Int.tmod (wrapInt64 (x + y)) 4) ≤ 0 then
        some (m, [Call.playerSeek 0 Whence.SeekStart])
      else if wrapInt64 (wrapInt64 (x + y) + Int.tmod (wrapInt64 (x + y)) 4) ≥ s.length then
        some (m, [Call.playerSeek 0 Whence.SeekEnd])
      else some (m, [Call.playerSeek
        (wrapInt64 (wrapInt64 (x + y) + Int.tmod (wrapInt64 (x + y)) 4)) Whence.SeekStart]) := by
  have hLen : m.trackWrapper.Length = s.length := by simp [readWrapper.Length, hs]
  have hPr : m.trackWrapper.Progress = m.trackWrapper.progress := by
    simp [readWrapper.Progress, hs]
  unfold Model.Rewind
  simp only [hp, hLen, hPr, hx, hy]

theorem RewindOn_of_Rewind (impl : Float64 → Int) (m : Model) (amount : Int)
    (r : Model × List Call) (hr : m.Rewind amount = some r) :
    m.RewindOn impl amount = r := by
  unfold Model.Rewind at hr
  unfold Model.RewindOn
  cases hp : m.player with
  | none =>
    simp only [hp] at hr ⊢
    exact Option.some.inj hr
  | some p =>
    simp only [hp] at hr ⊢
    generalize hx : Float64.toInt64
      (Float64.mul (Float64.ofInt m.trackWrapper.Length) m.trackWrapper.Progress) = ox at hr
    generalize hy : Float64.toInt64 (Float64.round (Float64.mul
      (Float64.div (Float64.ofInt m.trackWrapper.Length) (Float64.ofInt m.track.DurationMs))
      (Float64.ofInt (Milliseconds amount)))) = oy at hr
    cases ox with
    | none => simp at hr
    | some x =>
      cases oy with
      | none => simp at hr
      | some y =>
        simp only [Float64.toInt64On, hx, hy]
        simp only at hr
        split_ifs at hr ⊢ <;> exact Option.some.inj hr

theorem RewindOn_seek_cases (impl : Float64 → Int) (m : Model) (p : Player)
    (s : BufferedStream) (amount : Int)
    (hp : m.player = some p) (hs : m.trackWrapper.trackBuffer = some s) :
    m.RewindOn impl amount = (m, [Call.playerSeek 0 Whence.SeekStart]) ∨
    m.RewindOn impl amount = (m, [Call.playerSeek 0 Whence.SeekEnd]) ∨
    ∃ t : Int, 0 < t ∧ t < s.length ∧
      m.RewindOn impl amount = (m, [Call.playerSeek t Whence.SeekStart]) := by
  have hLen : m.trackWrapper.Length = s.length := by simp [readWrapper.Length, hs]
  unfold Model.RewindOn
  simp only [hp, hLen]
  split_ifs with h1 h2
  · left; rfl
  · right; left; rfl
  · right; right
    exact ⟨_, by omega, by omega, rfl⟩

/-- C1: after `SetVolume v` the stored volume returned by `Volume` is `v`
clamped to `[0,1]`, whether or not a session is active; in particular
`SetVolume (-1)` stores 0 and `SetVolume 2` stores 1. -/
theorem SetVolume_stores_clamp (m : Model) (v : Float64) :
    (m.SetVolume v).1.Volume = clamp01 v ∧
    (m.SetVolume (Float64.fin (-1))).1.Volume = Float64.fin 0 ∧
    (m.SetVolume (Float64.fin 2)).1.Volume = Float64.fin 1 := by
  have key : ∀ w : Float64, (m.SetVolume w).1.Volume = clamp01 w := by
    intro w
    have hvol : (m.SetVolume w).1.Volume =
        if Float64.lt w (Float64.fin 0) then Float64.fin 0
        else if Float64.lt (Float64.fin 1) w then Float64.fin 1 else w := by
      unfold Model.SetVolume Model.Volume
      cases m.player <;> rfl
    rw [hvol]
    cases w with
    | fin q =>
      simp only [Float64.lt, clamp01, decide_eq_true_eq]
      by_cases h0 : q < 0
      · have h1 : min q 1 = q := min_eq_left (by linarith)
        simp [h0, h1, le_of_lt h0]
      · by_cases h1 : 1 < q
        · have h2 : min q 1 = 1 := min_eq_right (le_of_lt h1)
          simp [h0, h1, h2]
        · have h2 : min q 1 = q := min_eq_left (not_lt.mp h1)
          simp [h0, h1, h2, not_lt.mp h0]
    | posInf => simp [Float64.lt, clamp01]
    | negInf => simp [Float64.lt, clamp01]
    | nan => simp [Float64.lt, clamp01]
  refine ⟨key v, ?_, ?_⟩
  · rw [key]; simp [clamp01]
  · rw [key]; simp [clamp01]

/-- C4, evaluated on a playing session: `SetVolume 2` stores the clamped
volume 1 but hands the unclamped 2 to the output session, whose volume then
differs from `Volume` and lies outside `[0,1]`. -/
theorem SetVolume_session_unclamped :
    ((playingModel 4000000).SetVolume (Float64.fin 2)).1.Volume = Float64.fin 1 ∧
    ((playingModel 4000000).SetVolume (Float64.fin 2)).1.player =
      some { playing := true, volume := Float64.fin 2 } ∧
    ((playingModel 4000000).SetVolume (Float64.fin 2)).2 =
      [Call.playerSetVolume (Float64.fin 2)] := by
  decide!

/-! ## transport operations on the session -/

/-- C8: with no active session `Play`, `Pause` and `Stop` return the controller
unchanged and issue no call; `Rewind` and `SetPos` return it unchanged and
issue one call only, the request of a STOP control event. -/
theorem no_session_operations (m : Model) (h : m.player = none) (amount pos : Int) :
    m.Play = (m, []) ∧ m.Pause = (m, []) ∧ m.Stop = (m, []) ∧
    m.Rewind amount = some (m, [Call.send Control.STOP]) ∧
    m.SetPos pos = some (m, [Call.send Control.STOP]) := by
  simp [Model.Play, Model.Pause, Model.Stop, Model.Rewind, Model.SetPos, h]

/-- Witness of C8 on the idle controller. -/
theorem no_session_operations_witness :
    idleModel.player = none ∧
    idleModel.Play = (idleModel, []) ∧ idleModel.Pause = (idleModel, []) ∧
    idleModel.Stop = (idleModel, []) ∧
    idleModel.Rewind (Millisecond 5000) = some (idleModel, [Call.send Control.STOP]) ∧
    idleModel.SetPos (Millisecond 5000) = some (idleModel, [Call.send Control.STOP]) :=
  ⟨rfl, no_session_operations idleModel rfl (Millisecond 5000) (Millisecond 5000)⟩

/-- C10 as stated fails: after `Stop` on a playing session `CurrentTrack` still
returns the metadata of the track that was loaded. -/
theorem Stop_keeps_track :
    ¬ ((playingModel 4000000).Stop.1.CurrentTrack ≠ (playingModel 4000000).CurrentTrack) := by
  decide!

/-- C10 amended: on an active session `Stop` pauses the session if it is
playing, closes the adapter and then the output session, and drops the session
and the attached stream; afterwards `IsStoped` is true, `IsPlaying` is false,
and the track metadata, the cover and the stored volume are as before. -/
theorem Stop_effect (m : Model) (p : Player) (h : m.player = some p) :
    m.Stop.2 = (if p.playing then [Call.playerPause] else []) ++
      [Call.wrapperClose, Call.playerClose] ∧
    m.Stop.1.player = none ∧ m.Stop.1.trackWrapper.trackBuffer = none ∧
    m.Stop.1.IsStoped = true ∧ m.Stop.1.IsPlaying = false ∧
    m.Stop.1.CurrentTrack = m.CurrentTrack ∧ m.Stop.1.Volume = m.Volume ∧
    m.Stop.1.cover = m.cover := by
  simp [Model.Stop, h, Model.IsStoped, Model.IsPlaying, Model.CurrentTrack, Model.Volume,
    readWrapper.Close]

/-- Witness of the amended C10 on a playing session. -/
theorem Stop_effect_witness :
    (playingModel 4000000).Stop.2 =
      [Call.playerPause, Call.wrapperClose, Call.playerClose] ∧
    (playingModel 4000000).Stop.1.IsStoped = true ∧
    (playingModel 4000000).Stop.1.CurrentTrack = sampleTrack := by
  have h := Stop_effect (playingModel 4000000) { playing := true, volume := Float64.fin (1 / 2) } rfl
  exact ⟨h.1, h.2.2.2.1, h.2.2.2.2.2.1⟩

/-- C3, evaluated on a 200 s track streamed from 3 525 000 bytes: `SetPos` to
5 s and `Rewind` by 5 s from the start both seek to byte 88126, which is not a
multiple of 4. -/
theorem seek_not_frame_aligned :
    (playingModel 3525000).SetPos (Millisecond 5000) =
      some (playingModel 3525000, [Call.playerSeek 88126 Whence.SeekStart]) ∧
    (playingModel 3525000).Rewind (Millisecond 5000) =
      some (playingModel 3525000, [Call.playerSeek 88126 Whence.SeekStart]) ∧
    (88126 : Int) % 4 = 2 := by
  decide!

/-- C2 as stated fails: at the end (progress 1) of a stream of `3 * 2^60` bytes
for a track of 1024 ms, `Rewind` by twice the duration adds `3 * 2^61` to
`3 * 2^60`, the sum wraps to a negative `int64`, and the seek issued is
`Seek(0, SeekStart)`, not `Seek(0, SeekEnd)`. -/
theorem Rewind_forward_wraps :
    (sessionAt 1024 (3 * 2 ^ 60) 1).Rewind (Millisecond (2 * 1024)) =
      some (sessionAt 1024 (3 * 2 ^ 60) 1, [Call.playerSeek 0 Whence.SeekStart]) ∧
    (sessionAt 1024 (3 * 2 ^ 60) 1).Rewind (Millisecond (2 * 1024)) ≠
      some (sessionAt 1024 (3 * 2 ^ 60) 1, [Call.playerSeek 0 Whence.SeekEnd]) ∧
    wrapInt64 (3 * 2 ^ 60 + 3 * 2 ^ 61) = -(7 * 2 ^ 60) := by
  decide!

/-- C2 amended: on an active session with `D > 0`, `2*D` milliseconds
representable as a `time.Duration`, `0 < L ≤ 2^61` and progress in `[0,1]`,
`Rewind (-2*D)` issues exactly `Seek(0, SeekStart)`, `Rewind (2*D)` issues
exactly `Seek(0, SeekEnd)`, and whatever the amount, and whatever an
unrepresentable conversion yields, `Rewind` issues exactly one seek, which is
`Seek(0, SeekStart)`, `Seek(0, SeekEnd)` or `Seek(t, SeekStart)` with
`0 < t < L`. -/
theorem Rewind_clamps (m : Model) (p : Player) (s : BufferedStream) (q : ℚ)
    (hp : m.player = some p) (hs : m.trackWrapper.trackBuffer = some s)
    (hq : m.trackWrapper.progress = Float64.fin q) (hq0 : 0 ≤ q) (hq1 : q ≤ 1)
    (hD : 0 < m.track.DurationMs) (hDr : 2 * m.track.DurationMs * 1000000 < 2 ^ 63)
    (hL0 : 0 < s.length) (hL1 : s.length ≤ 2 ^ 61) :
    m.Rewind (Millisecond (-(2 * m.track.DurationMs))) =
      some (m, [Call.playerSeek 0 Whence.SeekStart]) ∧
    m.Rewind (Millisecond (2 * m.track.DurationMs)) =
      some (m, [Call.playerSeek 0 Whence.SeekEnd]) ∧
    (∀ (impl : Float64 → Int) (amount : Int) (r : Model × List Call),
      m.Rewind amount = some r → m.RewindOn impl amount = r) ∧
    ∀ (impl : Float64 → Int) (amount : Int),
      m.RewindOn impl amount = (m, [Call.playerSeek 0 Whence.SeekStart]) ∨
      m.RewindOn impl amount = (m, [Call.playerSeek 0 Whence.SeekEnd]) ∨
      ∃ t : Int, 0 < t ∧ t < s.length ∧
        m.RewindOn impl amount = (m, [Call.playerSeek t Whence.SeekStart]) := by
  refine ⟨?_, ?_, fun impl amount r hr => RewindOn_of_Rewind impl m amount r hr,
    fun impl amount => RewindOn_seek_cases impl m p s amount hp hs⟩
  all_goals
    set L := s.length with hLdef
    set D := m.track.DurationMs with hDdef
    have hLq : (1 : ℚ) ≤ (L : ℚ) := by
      have : 1 ≤ L := by omega
      exact_mod_cast this
    have hLq1 : (L : ℚ) ≤ 2 ^ 61 := by exact_mod_cast hL1
    have hD1 : (1 : ℚ) ≤ (D : ℚ) := by
      have : 1 ≤ D := by omega
      exact_mod_cast this
    have hDq1 : (D : ℚ) ≤ 2 ^ 43 := by
      have : D ≤ 2 ^ 43 := by omega
      exact_mod_cast this
    have hDne : (D : ℚ) ≠ 0 := by linarith
    have eD : Float64.ofInt D = Float64.fin D :=
      ofInt_exact D (by rw [abs_lt]; constructor <;> omega)
    -- float64(Length())
    obtain ⟨a1, ha1, ha1err, ha1s, -⟩ := ofRat_err64 (L : ℚ) (by
      rw [abs_of_nonneg (by linarith)]
      have : (2 : ℚ) ^ 61 ≤ 2 ^ 64 := by norm_num
      linarith)
    have ha10 : 0 ≤ a1 := ha1s (by linarith)
    rw [abs_of_nonneg (by linarith : (0 : ℚ) ≤ (L : ℚ)), abs_le] at ha1err
    have eL : Float64.ofInt L = Float64.fin a1 := ha1
    have s100 : (1 : ℚ) / 2 ^ 100 ≤ 1 / 64 := by norm_num
    have ha1up : a1 ≤ 2 ^ 62 := by
      have : (2 : ℚ) ^ 61 / 64 + 2 ^ 61 + 1 ≤ 2 ^ 62 := by norm_num
      linarith [ha1err.2]
    -- the current position
    have hz0 : 0 ≤ a1 * q := mul_nonneg ha10 hq0
    have hz1 : a1 * q ≤ a1 := by
      calc a1 * q ≤ a1 * 1 := mul_le_mul_of_nonneg_left hq1 ha10
        _ = a1 := mul_one _
    obtain ⟨z, hz, hzerr, hzs, -⟩ := ofRat_err64 (a1 * q) (by
      rw [abs_of_nonneg hz0]
      have : (2 : ℚ) ^ 62 ≤ 2 ^ 64 := by norm_num
      linarith)
    have hz0' : 0 ≤ z := hzs hz0
    rw [abs_of_nonneg hz0, abs_le] at hzerr
    obtain ⟨hcp0, hcp1⟩ := truncate_nonneg hz0'
    set cp0 := Float64.truncate z with hcp0def
    have hcpq : (cp0 : ℚ) ≤ 65 / 64 * a1 + 1 / 64 := by linarith [hzerr.2]
    have hcpup : cp0 ≤ 2 ^ 62 + 2 ^ 57 := by
      have : (cp0 : ℚ) ≤ ((2 ^ 62 + 2 ^ 57 : ℤ) : ℚ) := by
        have : (65 : ℚ) / 64 * 2 ^ 62 + 1 / 64 ≤ 2 ^ 62 + 2 ^ 57 := by norm_num
        push_cast
        linarith
      exact_mod_cast this
    have hx : Float64.toInt64 (Float64.mul (Float64.ofInt L) m.trackWrapper.progress) =
        some cp0 := by
      rw [eL, hq]
      simp only [Float64.mul, hz]
      exact toInt64_fin z (by omega) (by omega)
    -- the quotient length / duration
    have hquot0 : 0 ≤ a1 / D := by positivity
    have hquot1 : a1 / D ≤ a1 := div_le_self ha10 hD1
    obtain ⟨c, hc, hcerr, hcs, -⟩ := ofRat_err64 (a1 / D) (by
      rw [abs_of_nonneg hquot0]
      have : (2 : ℚ) ^ 62 ≤ 2 ^ 64 := by norm_num
      linarith)
    have hc0 : 0 ≤ c := hcs hquot0
    rw [abs_of_nonneg hquot0] at hcerr
    have hdiv : Float64.div (Float64.ofInt L) (Float64.ofInt D) = Float64.fin c := by
      rw [eL, eD]
      simp only [Float64.div, if_neg hDne, hc]
    set w := c * (2 * (D : ℚ)) with hw
    have hprod : |w - 2 * a1| ≤ 2 * a1 / 64 + 1 / 64 := by
      have e1 : w - 2 * a1 = (c - a1 / D) * (2 * D) := by
        rw [hw]; field_simp; ring
      have hnn : (0 : ℚ) ≤ 2 * D := by linarith
      rw [e1, abs_mul, abs_of_nonneg hnn]
      calc |c - a1 / D| * (2 * D) ≤ (a1 / D / 64 + 1 / 2 ^ 100) * (2 * D) :=
            mul_le_mul_of_nonneg_right hcerr hnn
        _ = 2 * a1 / 64 + 2 * D / 2 ^ 100 := by field_simp; ring
        _ ≤ 2 * a1 / 64 + 1 / 64 := by
            have : 2 * (D : ℚ) / 2 ^ 100 ≤ 1 / 64 := by
              rw [div_le_iff₀ (by norm_num)]
              have : (1 : ℚ) / 64 * 2 ^ 100 = 2 ^ 94 := by norm_num
              have : (2 : ℚ) * 2 ^ 43 ≤ 2 ^ 94 := by norm_num
              linarith
            linarith
    rw [abs_le] at hprod
    have hw0 : 0 ≤ w := mul_nonneg hc0 (by linarith)
    have hwup : w ≤ 2 ^ 64 := by
      have : (2 : ℚ) * 2 ^ 62 + 2 * 2 ^ 62 / 64 + 1 / 64 ≤ 2 ^ 64 := by norm_num
      linarith [hprod.2]
    have e61 : ((2 ^ 61 : ℤ) : ℚ) = 2 ^ 61 := by norm_num
  · -- backwards by twice the duration
    have eA : Float64.ofInt (-(2 * D)) = Float64.fin ((-(2 * D) : ℤ) : ℚ) :=
      ofInt_exact (-(2 * D)) (by rw [abs_lt]; constructor <;> omega)
    have hneg : c * ((-(2 * D) : ℤ) : ℚ) = -w := by rw [hw]; push_cast; ring
    obtain ⟨r, hr, hrerr, -, hrs⟩ := ofRat_err64 (c * ((-(2 * D) : ℤ) : ℚ)) (by
      rw [hneg, abs_neg, abs_of_nonneg hw0]
      exact hwup)
    have hr0 : r ≤ 0 := hrs (by rw [hneg]; linarith)
    rw [hneg, abs_neg, abs_of_nonneg hw0, abs_le] at hrerr
    set bo := Float64.roundHalfAway r with hbo
    have hboerr := roundHalfAway_err r
    rw [abs_le] at hboerr
    have hbo0 : bo ≤ 0 := roundHalfAway_nonpos hr0
    have hbolow : -(3 * 2 ^ 61) ≤ bo := by
      have : ((-(3 * 2 ^ 61) : ℤ) : ℚ) ≤ (bo : ℚ) := by
        push_cast
        linarith [hprod.2, hrerr.1, hboerr.1, ha1err.2]
      exact_mod_cast this
    have hsum : cp0 + bo < 0 := by
      have : ((cp0 + bo : ℤ) : ℚ) < ((0 : ℤ) : ℚ) := by
        push_cast
        linarith [hprod.1, hrerr.2, hboerr.2, ha1err.1]
      exact_mod_cast this
    have hy : Float64.toInt64 (Float64.round (Float64.mul
        (Float64.div (Float64.ofInt L) (Float64.ofInt D))
        (Float64.ofInt (Milliseconds (Millisecond (-(2 * D))))))) = some bo := by
      rw [Milliseconds_Millisecond, hdiv, eA]
      simp only [Float64.mul, hr]
      exact toInt64_round_fin r (by omega) (by omega)
    rw [Rewind_of_conversions m p s _ cp0 bo hp hs hx hy]
    obtain ⟨-, hrem⟩ := tmod_four_bounds (cp0 + bo)
    have hrem := hrem (by omega)
    have w1 : wrapInt64 (cp0 + bo) = cp0 + bo := wrapInt64_of_range (by omega) (by omega)
    have w2 : wrapInt64 (cp0 + bo + Int.tmod (cp0 + bo) 4) = cp0 + bo + Int.tmod (cp0 + bo) 4 :=
      wrapInt64_of_range (by omega) (by omega)
    rw [w1, w2, if_pos (by omega)]
  · -- forwards by twice the duration
    have eA : Float64.ofInt (2 * D) = Float64.fin ((2 * D : ℤ) : ℚ) :=
      ofInt_exact (2 * D) (by rw [abs_lt]; constructor <;> omega)
    have hpos : c * ((2 * D : ℤ) : ℚ) = w := by rw [hw]; push_cast; ring
    obtain ⟨r, hr, hrerr, hrs, -⟩ := ofRat_err64 (c * ((2 * D : ℤ) : ℚ)) (by
      rw [hpos, abs_of_nonneg hw0]
      exact hwup)
    have hr0 : 0 ≤ r := hrs (by rw [hpos]; exact hw0)
    rw [hpos, abs_of_nonneg hw0, abs_le] at hrerr
    set bo := Float64.roundHalfAway r with hbo
    have hboerr := roundHalfAway_err r
    rw [abs_le] at hboerr
    have hboL : L ≤ bo := by
      have : (L : ℚ) ≤ (bo : ℚ) := by
        linarith [hprod.1, hrerr.1, hboerr.1, ha1err.1]
      exact_mod_cast this
    have hsumup : cp0 + bo ≤ 7 * 2 ^ 60 := by
      have : ((cp0 + bo : ℤ) : ℚ) ≤ ((7 * 2 ^ 60 : ℤ) : ℚ) := by
        push_cast
        linarith [hprod.2, hrerr.2, hboerr.2, ha1err.2]
      exact_mod_cast this
    have hy : Float64.toInt64 (Float64.round (Float64.mul
        (Float64.div (Float64.ofInt L) (Float64.ofInt D))
        (Float64.ofInt (Milliseconds (Millisecond (2 * D)))))) = some bo := by
      rw [Milliseconds_Millisecond, hdiv, eA]
      simp only [Float64.mul, hr]
      exact toInt64_round_fin r (by omega) (by omega)
    rw [Rewind_of_conversions m p s _ cp0 bo hp hs hx hy]
    obtain ⟨hrem, -⟩ := tmod_four_bounds (cp0 + bo)
    have hrem := hrem (by omega)
    have w1 : wrapInt64 (cp0 + bo) = cp0 + bo := wrapInt64_of_range (by omega) (by omega)
    have w2 : wrapInt64 (cp0 + bo + Int.tmod (cp0 + bo) 4) = cp0 + bo + Int.tmod (cp0 + bo) 4 :=
      wrapInt64_of_range (by omega) (by omega)
    rw [w1, w2, if_neg (by omega), if_pos (by omega)]

/-- Witness of the amended C2 on a 200 s track of 4 000 000 bytes at the start. -/
theorem Rewind_clamps_witness :
    (playingModel 4000000).Rewind (Millisecond (-(2 * 200000))) =
      some (playingModel 4000000, [Call.playerSeek 0 Whence.SeekStart]) ∧
    (playingModel 4000000).Rewind (Millisecond (2 * 200000)) =
      some (playingModel 4000000, [Call.playerSeek 0 Whence.SeekEnd]) :=
  ⟨(Rewind_clamps (playingModel 4000000) { playing := true, volume := Float64.fin (1 / 2) }
      { length := 4000000 } 0 rfl rfl rfl (le_refl 0) zero_le_one (by decide) (by decide)
      (by decide) (by decide)).1,
   (Rewind_clamps (playingModel 4000000) { playing := true, volume := Float64.fin (1 / 2) }
      { length := 4000000 } 0 rfl rfl rfl (le_refl 0) zero_le_one (by decide) (by decide)
      (by decide) (by decide)).2.1⟩

/-- C5 as stated fails: for a stream of `2^62 + 500` bytes and a track of
1024 ms, `float64` holds the length as `2^62`, `SetPos` to the full duration
seeks to byte `2^62`, and that is 500 bytes away from `L*d/D = 2^62 + 500`. -/
theorem SetPos_far_from_target :
    (sessionAt 1024 (2 ^ 62 + 500) 0).SetPos (Millisecond 1024) =
      some (sessionAt 1024 (2 ^ 62 + 500) 0, [Call.playerSeek (2 ^ 62) Whence.SeekStart]) ∧
    ¬ (|(((2 ^ 62 : Int) : ℚ)) - ((2 ^ 62 + 500 : Int) : ℚ) * (1024 : Int) / (1024 : Int)| < 4) := by
  refine ⟨by decide!, ?_⟩
  norm_num

/-- C5 amended: on an active session with `0 < L ≤ 2^50`, `D > 0` and `D`
milliseconds representable as a `time.Duration`, for `0 ≤ d ≤ D` the call
`SetPos d` issues exactly `Seek(o, SeekStart)` with `0 ≤ o` and
`|o - L*d/D| < 4`, so the position `D * (o / L)` derived back from `o` is
within the duration of one frame, `4 * D / L`, of `d`. -/
theorem SetPos_within_frame (m : Model) (p : Player) (s : BufferedStream) (d : Int)
    (hp : m.player = some p) (hs : m.trackWrapper.trackBuffer = some s)
    (hD : 0 < m.track.DurationMs) (hDr : m.track.DurationMs * 1000000 < 2 ^ 63)
    (hL0 : 0 < s.length) (hL1 : s.length ≤ 2 ^ 50) (hd0 : 0 ≤ d)
    (hd1 : d ≤ m.track.DurationMs) :
    ∃ o : Int, m.SetPos (Millisecond d) = some (m, [Call.playerSeek o Whence.SeekStart]) ∧
      0 ≤ o ∧
      |(o : ℚ) - (s.length : ℚ) * d / m.track.DurationMs| < 4 ∧
      |(m.track.DurationMs : ℚ) * ((o : ℚ) / s.length) - d| <
        4 * ((m.track.DurationMs : ℚ) / s.length) := by
  have hLen : m.trackWrapper.Length = s.length := by simp [readWrapper.Length, hs]
  set L := s.length with hLdef
  set D := m.track.DurationMs with hDdef
  have eL : Float64.ofInt L = Float64.fin L := ofInt_exact L (by rw [abs_lt]; constructor <;> omega)
  have eD : Float64.ofInt D = Float64.fin D := ofInt_exact D (by rw [abs_lt]; constructor <;> omega)
  have ed : Float64.ofInt d = Float64.fin d := ofInt_exact d (by rw [abs_lt]; constructor <;> omega)
  have hLq : (0 : ℚ) < (L : ℚ) := by exact_mod_cast hL0
  have hLq1 : (L : ℚ) ≤ 2 ^ 50 := by exact_mod_cast hL1
  have hDq : (0 : ℚ) < (D : ℚ) := by exact_mod_cast hD
  have hDq1 : (D : ℚ) ≤ 2 ^ 44 := by
    have : D ≤ 2 ^ 44 := by omega
    exact_mod_cast this
  have hdq0 : (0 : ℚ) ≤ (d : ℚ) := by exact_mod_cast hd0
  have hdq1 : (d : ℚ) ≤ (D : ℚ) := by exact_mod_cast hd1
  have hD1 : (1 : ℚ) ≤ (D : ℚ) := by
    have : 1 ≤ D := by omega
    exact_mod_cast this
  have t0 := pow2_pos (-1075)
  have t1 := tiny_le
  set τ := pow2 (-1075) with hτ
  -- the quotient
  have hquot0 : (0 : ℚ) ≤ (L : ℚ) / D := by positivity
  have hquot1 : (L : ℚ) / D ≤ L := div_le_self (le_of_lt hLq) hD1
  obtain ⟨c, hc, hcerr, hc0, -⟩ := ofRat_err ((L : ℚ) / D) (by
    rw [abs_of_nonneg hquot0]
    have := two_pow_64_le_pow2_1023
    have : (2 : ℚ) ^ 50 ≤ 2 ^ 64 := by norm_num
    linarith)
  have hc0 := hc0 hquot0
  rw [abs_of_nonneg hquot0] at hcerr
  -- the product
  set x : ℚ := (L : ℚ) * d / D with hx
  have hx0 : 0 ≤ x := by positivity
  have hx1 : x ≤ L := by
    rw [hx, mul_div_assoc]
    have : (d : ℚ) / D ≤ 1 := (div_le_one hDq).mpr hdq1
    calc (L : ℚ) * ((d : ℚ) / D) ≤ L * 1 := mul_le_mul_of_nonneg_left this (le_of_lt hLq)
      _ = L := mul_one _
  have hdτ : (d : ℚ) * τ ≤ 1 / 2 ^ 56 := by
    calc (d : ℚ) * τ ≤ 2 ^ 44 * (1 / 2 ^ 100) :=
          mul_le_mul (by linarith) t1 (le_of_lt t0) (by norm_num)
      _ = 1 / 2 ^ 56 := by norm_num
  have hcd : |c * d - x| ≤ x / 2 ^ 53 + d * τ := by
    have e1 : c * d - x = (c - (L : ℚ) / D) * d := by
      rw [hx]; field_simp; ring
    rw [e1, abs_mul, abs_of_nonneg hdq0]
    calc |c - (L : ℚ) / D| * d ≤ ((L : ℚ) / D / 2 ^ 53 + τ) * d :=
          mul_le_mul_of_nonneg_right hcerr hdq0
      _ = x / 2 ^ 53 + d * τ := by rw [hx]; field_simp; ring
  have hcd0 : 0 ≤ c * d := mul_nonneg hc0 hdq0
  rw [abs_le] at hcd
  have hx53 : x / 2 ^ 53 ≤ 1 / 8 := by
    rw [div_le_iff₀ (by norm_num)]
    have : (2 : ℚ) ^ 50 = 1 / 8 * 2 ^ 53 := by norm_num
    linarith
  have hcd1 : c * d ≤ 2 ^ 50 + 1 := by
    have : (1 : ℚ) / 2 ^ 56 ≤ 1 / 2 := by norm_num
    linarith [hcd.2]
  obtain ⟨r, hr, hrerr, hr0, -⟩ := ofRat_err (c * d) (by
    rw [abs_of_nonneg hcd0]
    have := two_pow_64_le_pow2_1023
    have : (2 : ℚ) ^ 50 + 1 ≤ 2 ^ 64 := by norm_num
    linarith)
  have hr0 := hr0 hcd0
  rw [abs_of_nonneg hcd0, abs_le] at hrerr
  have hcd53 : c * d / 2 ^ 53 ≤ 1 / 8 + 1 / 2 ^ 53 := by
    rw [div_le_iff₀ (by norm_num)]
    have : (2 : ℚ) ^ 50 + 1 = (1 / 8 + 1 / 2 ^ 53) * 2 ^ 53 := by norm_num
    linarith
  have hcd53' : 0 ≤ c * d / 2 ^ 53 := by positivity
  have s1 : (1 : ℚ) / 2 ^ 56 ≤ 1 / 64 := by norm_num
  have s2 : (1 : ℚ) / 2 ^ 100 ≤ 1 / 64 := by norm_num
  have s3 : (1 : ℚ) / 2 ^ 53 ≤ 1 / 64 := by norm_num
  have hrx1 : r - x ≤ 5 / 16 := by linarith [hcd.2, hrerr.2]
  have hrx2 : x - r ≤ 5 / 16 := by linarith [hcd.1, hrerr.1]
  -- rounding and conversion
  set bo := Float64.roundHalfAway r with hbo
  have hbo0 : 0 ≤ bo := roundHalfAway_nonneg hr0
  have hboerr := roundHalfAway_err r
  rw [abs_le] at hboerr
  have hboq : (bo : ℚ) ≤ 2 ^ 50 + 1 := by linarith [hboerr.2]
  have hbo1 : bo ≤ 2 ^ 50 + 1 := by exact_mod_cast hboq
  obtain ⟨hrem, -⟩ := tmod_four_bounds bo
  have hrem := hrem hbo0
  have hconv : Float64.toInt64 (Float64.round (Float64.fin r)) = some bo :=
    toInt64_round_fin r (by omega) (by omega)
  have hw : wrapInt64 (bo + Int.tmod bo 4) = bo + Int.tmod bo 4 :=
    wrapInt64_of_range (by omega) (by omega)
  have hDne : (D : ℚ) ≠ 0 := ne_of_gt hDq
  have hval : m.SetPos (Millisecond d) =
      some (m, [Call.playerSeek (bo + Int.tmod bo 4) Whence.SeekStart]) := by
    unfold Model.SetPos
    simp only [hp, hLen, Milliseconds_Millisecond, eL, ed]
    rw [← hDdef, eD]
    simp only [Float64.div, if_neg hDne, hc, Float64.mul, hr, hconv, hw]
  have hremq0 : (0 : ℚ) ≤ (Int.tmod bo 4 : ℚ) := by exact_mod_cast hrem.1
  have hremq1 : ((Int.tmod bo 4 : ℤ) : ℚ) ≤ 3 := by exact_mod_cast hrem.2
  have hox : |((bo + Int.tmod bo 4 : ℤ) : ℚ) - x| < 4 := by
    rw [abs_lt]
    push_cast
    constructor <;> linarith [hboerr.1, hboerr.2]
  refine ⟨bo + Int.tmod bo 4, hval, by omega, hox, ?_⟩
  have e2 : (D : ℚ) * (((bo + Int.tmod bo 4 : ℤ) : ℚ) / L) - d =
      (D : ℚ) / L * (((bo + Int.tmod bo 4 : ℤ) : ℚ) - x) := by
    rw [hx]; field_simp; ring
  rw [e2, abs_mul, abs_of_pos (div_pos hDq hLq), mul_comm 4]
  exact mul_lt_mul_of_pos_left hox (div_pos hDq hLq)

/-- Witness of the amended C5 on a 200 s track of 4 000 000 bytes, seeking to 5 s. -/
theorem SetPos_within_frame_witness :
    ∃ o : Int, (playingModel 4000000).SetPos (Millisecond 5000) =
        some (playingModel 4000000, [Call.playerSeek o Whence.SeekStart]) ∧
      0 ≤ o ∧
      |(o : ℚ) - ((4000000 : Int) : ℚ) * (5000 : Int) / (200000 : Int)| < 4 ∧
      |((200000 : Int) : ℚ) * ((o : ℚ) / (4000000 : Int)) - (5000 : Int)| <
        4 * (((200000 : Int) : ℚ) / (4000000 : Int)) :=
  SetPos_within_frame (playingModel 4000000) { playing := true, volume := Float64.fin (1 / 2) }
    { length := 4000000 } 5000 rfl rfl (by decide) (by decide) (by decide) (by decide)
    (by decide) (by decide)

end tracker
